import Mathlib

/-!
Shallow embedding of the GitHub-issue-to-project-record parsing core of the
repository (scripts/parse-issue.ts, the fetch script, and
src/types/project.schema.ts), together with theorems settling the frozen
claims about it.

Strings are modelled as their lists of characters (`String.data`); the
JavaScript string functions used by the source (`toLowerCase`, `trim`,
`split`, `replace` with the concrete regular expressions appearing in the
source) are embedded as executable functions on `List Char`.  JavaScript
`toLowerCase` is embedded as ASCII lowercasing (the only case mapping the
parsed documents exercise), and the JavaScript whitespace class is embedded
as the common ASCII whitespace characters.
-/

set_option maxRecDepth 10000

/-- Character code of a character, as a natural number. -/
def cn (c : Char) : Nat := c.toNat

/-- JavaScript whitespace (ASCII part): space, tab, line feed, vertical tab,
form feed, carriage return. -/
def isWSB (c : Char) : Bool :=
  cn c == 32 || cn c == 9 || cn c == 10 || cn c == 11 || cn c == 12 || cn c == 13

/-- Lower-case ASCII letter. -/
def isLowerB (c : Char) : Bool := 97 ≤ cn c && cn c ≤ 122

/-- ASCII digit. -/
def isDigitB (c : Char) : Bool := 48 ≤ cn c && cn c ≤ 57

/-- Upper-case ASCII letter. -/
def isUpperB (c : Char) : Bool := 65 ≤ cn c && cn c ≤ 90

/-- ASCII letter. -/
def isAlphaB (c : Char) : Bool := isLowerB c || isUpperB c

/-- JavaScript word character `\w`: ASCII letter, digit or underscore. -/
def isWordB (c : Char) : Bool := isAlphaB c || isDigitB c || c == '_'

/-- Lower-case ASCII letter or digit (the class `[a-z0-9]`). -/
def isAlnumLCB (c : Char) : Bool := isLowerB c || isDigitB c

/-- The slug character class `[a-z0-9-]` of the schema. -/
def slugCharB (c : Char) : Bool := isAlnumLCB c || c == '-'

/-- ASCII lowercasing of one character: embedding of JavaScript
`toLowerCase` at the character level (agreeing with `Char.toLower`). -/
def toLowerCh (c : Char) : Char :=
  if h : 65 ≤ c.toNat ∧ c.toNat ≤ 90 then
    ⟨⟨BitVec.ofNatLt (c.toNat + 32) (by omega)⟩, Or.inl (by
      show c.toNat + 32 < 55296
      omega)⟩
  else c

/-- Lowercase a character list. -/
def lowerL (l : List Char) : List Char := l.map toLowerCh

/-- Embedding of JavaScript `String.prototype.trim`: drop whitespace
from both ends. -/
def trimChars (l : List Char) : List Char :=
  ((l.dropWhile isWSB).reverse.dropWhile isWSB).reverse

/-- Embedding of JavaScript `String.prototype.split` with a one-character
separator. -/
def splitOnChar (sep : Char) : List Char → List (List Char)
  | [] => [[]]
  | c :: cs =>
    let r := splitOnChar sep cs
    if c == sep then [] :: r
    else
      match r with
      | h :: t => (c :: h) :: t
      | [] => [[c]]

/-- Split a document into its lines (JavaScript `body.split("\n")`). -/
def splitLines (l : List Char) : List (List Char) := splitOnChar '\n' l

/-- Rejoin lines with newline (JavaScript `lines.join("\n")`). -/
def joinLines (ls : List (List Char)) : List Char := List.intercalate ['\n'] ls

/-- Join fragments with single spaces (JavaScript `parts.join(" ")`). -/
def joinSpace (ls : List (List Char)) : List Char := List.intercalate [' '] ls

/-!
## The slug generator of the parser module (scripts/parse-issue.ts)

lowercase, then delete every character outside the class [^\w\s-] (word
characters, whitespace, hyphen are kept), then replace each whitespace run
\s+ with "-", then replace each hyphen run with a single "-", then trim.
The two run-replacing regular expressions are embedded as two-state
scanners: the Boolean argument records whether the scanner is inside a run
whose first character has already been replaced by a hyphen.
-/

/-- Characters kept by `replace(/[^\w\s-]/g, "")`. -/
def keepB (c : Char) : Bool := isWordB c || isWSB c || c == '-'

/-- `replace(/\s+/g, "-")`: each maximal whitespace run becomes one hyphen. -/
def wsGo : Bool → List Char → List Char
  | _, [] => []
  | inRun, c :: cs =>
    if isWSB c then
      if inRun then wsGo true cs else '-' :: wsGo true cs
    else c :: wsGo false cs

/-- Hyphen-run collapsing: each maximal hyphen run becomes one hyphen. -/
def hyGo : Bool → List Char → List Char
  | _, [] => []
  | inRun, c :: cs =>
    if c == '-' then
      if inRun then hyGo true cs else '-' :: hyGo true cs
    else c :: hyGo false cs

/-- The parser module slug generator, on character lists. -/
def slugifyCore (l : List Char) : List Char :=
  trimChars (hyGo false (wsGo false ((lowerL l).filter keepB)))

/-- The parser module slug generator (`slugify` of scripts/parse-issue.ts). -/
def slugify (s : String) : String := ⟨slugifyCore s.data⟩

/-!
## The slug generator of the fetch script

empty or non-string input returns "unknown"; otherwise lowercase, trim,
replace each run of characters outside [a-z0-9] with a single "-", then
delete one leading and one trailing hyphen (the regex with the two
anchored alternatives, global flag).
-/

/-- `replace(/[^a-z0-9]+/g, "-")`: each maximal run of characters outside
`[a-z0-9]` becomes one hyphen. -/
def runsGo : Bool → List Char → List Char
  | _, [] => []
  | inRun, c :: cs =>
    if isAlnumLCB c then c :: runsGo false cs
    else if inRun then runsGo true cs
    else '-' :: runsGo true cs

/-- Remove one leading hyphen (the caret-hyphen alternative of the
anchored stripping regex). -/
def stripLead : List Char → List Char
  | [] => []
  | c :: t => if c = '-' then t else c :: t

/-- Remove one trailing hyphen (the hyphen-dollar alternative of the
anchored stripping regex). -/
def stripTrail : List Char → List Char
  | [] => []
  | [c] => if c = '-' then [] else [c]
  | c :: cs => c :: stripTrail cs

/-- The fetch script slug generator (`slugify` of the fetch script). -/
def slugifyFetch (s : String) : String :=
  if s.data = [] then "unknown"
  else ⟨stripTrail (stripLead (runsGo false (trimChars (lowerL s.data))))⟩

/-- The slug contract as the specification words it: lowercase the title,
replace every run of one or more characters that are neither lowercase
letters nor digits with a single hyphen, strip any leading or trailing
hyphen; empty input gives the literal fallback. -/
def slugSpec (s : String) : String :=
  if s.data = [] then "unknown"
  else ⟨stripTrail (stripLead (runsGo false (lowerL s.data)))⟩

/-!
## Section extraction (extractSection of scripts/parse-issue.ts)
-/

/-- Raw section content extracted from the issue body: `raw` is the
section lines rejoined by newline and trimmed, `lines` the individually
trimmed lines. -/
structure SectionContent where
  raw : List Char
  lines : List (List Char)
deriving DecidableEq

/-- Heading-with-text test on a line: the regular expression
`^#{1,3}\s+(.+)$` applied to the trimmed line, returning the captured
heading text.  One to three leading hash characters, at least one
whitespace character, then the (greedily whitespace-stripped, nonempty)
text. -/
def headingText? (line : List Char) : Option (List Char) :=
  let t := trimChars line
  let n := (t.takeWhile (· == '#')).length
  if 1 ≤ n ∧ n ≤ 3 then
    match t.drop n with
    | [] => none
    | c :: cs =>
      if isWSB c then
        let content := (c :: cs).dropWhile isWSB
        if content = [] then
          if (c :: cs).length ≥ 2 then some ((c :: cs).drop ((c :: cs).length - 1))
          else none
        else some content
      else none
  else none

/-- Does this line declare the wanted section?  The source compares the
trimmed, lowercased heading text with the lowercased target name. -/
def isTargetHeading (name : String) (line : List Char) : Bool :=
  match headingText? line with
  | some h => lowerL (trimChars h) == lowerL name.data
  | none => false

/-- Section-terminating heading test: the regular expression
`^#{1,3}\s+` on the trimmed line. -/
def isStopHeading (line : List Char) : Bool :=
  let t := trimChars line
  let n := (t.takeWhile (· == '#')).length
  1 ≤ n && n ≤ 3 &&
    (match t.drop n with
     | c :: _ => isWSB c
     | [] => false)

/-- Horizontal-rule test: the regular expression `^[-*_]{3,}\s*$` on the
trimmed line (three or more characters, each a hyphen, asterisk or
underscore). -/
def isHR (line : List Char) : Bool :=
  let t := trimChars line
  3 ≤ t.length && t.all (fun c => c == '-' || c == '*' || c == '_')

/-- A line at which section collection stops. -/
def stopLine (line : List Char) : Bool := isStopHeading line || isHR line

/-- Extract a named section: find the first heading line whose text
matches the name case-insensitively, then collect all following lines up
to (excluding) the next heading or horizontal rule. -/
def extractSection (body : String) (sectionName : String) : Option SectionContent :=
  let lines := splitLines body.data
  match lines.findIdx? (isTargetHeading sectionName) with
  | none => none
  | some i =>
    let sectionLines := (lines.drop (i + 1)).takeWhile (fun l => !stopLine l)
    some ⟨trimChars (joinLines sectionLines), sectionLines.map trimChars⟩

/-!
## Key-value extraction (extractKeyValue of scripts/parse-issue.ts)

The key pattern is, case-insensitively, the alternation of
bold-key-colon-value and optional-asterisks-key-optional-asterisks-colon-
value, anchored at both ends of the line; the captured value is everything
after the colon (there must be at least one character after it).
-/

/-- Strip a leading double asterisk and then a trailing double asterisk
(the global replacement of the two anchored double-asterisk alternatives
by the empty string). -/
def stripBoldEnds (l : List Char) : List Char :=
  let l1 := if ('*' :: '*' :: []).isPrefixOf l then l.drop 2 else l
  if ('*' :: '*' :: []).isSuffixOf l1 then l1.dropLast.dropLast else l1

/-- After the key: up to two asterisks, a colon, and a nonempty remainder;
returns the remainder (the captured value text).  `b` asterisks are tried
greedily, mirroring regex backtracking. -/
def matchColonTail (r : List Char) : Option (List Char) :=
  match r with
  | '*' :: '*' :: ':' :: rest => if rest = [] then none else some rest
  | '*' :: ':' :: rest => if rest = [] then none else some rest
  | ':' :: rest => if rest = [] then none else some rest
  | _ => none

/-- Match a key-value line: up to two leading asterisks (tried greedily),
the key (case-insensitive), then `matchColonTail`. -/
def matchKeyLine (key : String) (line : List Char) : Option (List Char) :=
  let tryAt : List Char → Option (List Char) := fun r =>
    if (lowerL key.data).isPrefixOf (lowerL r) then
      matchColonTail (r.drop key.data.length)
    else none
  match line with
  | '*' :: '*' :: r =>
    match tryAt r with
    | some v => some v
    | none =>
      match tryAt ('*' :: r) with
      | some v => some v
      | none => tryAt ('*' :: '*' :: r)
  | '*' :: r =>
    match tryAt r with
    | some v => some v
    | none => tryAt ('*' :: r)
  | r => tryAt r

/-- Clean a captured value: trim, strip anchored bold markers, trim. -/
def cleanValue (v : List Char) : List Char :=
  trimChars (stripBoldEnds (trimChars v))

/-- Extract a key-value pair from section content: scan the (trimmed)
section lines for the first line matching the key pattern; clean the
captured value; if it is empty, fall back to the following line (trimmed
and cleaned the same way). -/
def extractKeyValue (osec : Option SectionContent) (key : String) : List Char :=
  match osec with
  | none => []
  | some sec => extractKeyValueGo key sec.lines
where
  extractKeyValueGo (key : String) : List (List Char) → List Char
    | [] => []
    | line :: restLines =>
      match matchKeyLine key line with
      | none => extractKeyValueGo key restLines
      | some captured =>
        let v := cleanValue captured
        if v = [] then
          match restLines with
          | next :: _ => cleanValue (trimChars next)
          | [] => v
        else v

/-!
## Tags, media, notes, description, title
-/

/-- Parse comma-separated tags: split the raw section text on commas, trim
each piece, drop empty pieces.  Absent section or empty raw text gives the
empty list. -/
def parseTags (osec : Option SectionContent) : List (List Char) :=
  match osec with
  | none => []
  | some sec =>
    if sec.raw = [] then []
    else ((splitOnChar ',' sec.raw).map trimChars).filter (fun t => t ≠ [])

/-- Is this character outside the whitespace class (the regex class
`[^\s]` of the URL pattern)? -/
def nonSpaceB (c : Char) : Bool := !isWSB c

/-- Does the URL pattern match at the start of this list?  The pattern is,
case-insensitively, http or https, colon, two slashes, then at least one
non-whitespace character. -/
def startsUrl (l : List Char) : Bool :=
  let ll := lowerL l
  ("http://".data.isPrefixOf ll && nonSpaceB (l.getD 7 ' ')) ||
  ("https://".data.isPrefixOf ll && nonSpaceB (l.getD 8 ' '))

/-- Successive matches of the URL pattern, fuel-indexed scanner: at a match
position the match is the maximal run of non-whitespace characters, and
scanning resumes after it; otherwise scanning advances one character. -/
def urlScanF : Nat → List Char → List (List Char)
  | 0, _ => []
  | _ + 1, [] => []
  | f + 1, c :: cs =>
    if startsUrl (c :: cs) then
      ((c :: cs).takeWhile nonSpaceB) :: urlScanF f ((c :: cs).dropWhile nonSpaceB)
    else urlScanF f cs

/-- All matches of the URL pattern in a text, in order of appearance. -/
def urlMatches (l : List Char) : List (List Char) := urlScanF l.length l

/-- The first match of the URL pattern in a text. -/
def firstUrl (l : List Char) : Option (List Char) := (urlMatches l).head?

/-- The Logo marker test: the lowercased line starts with the bold logo
marker (the second source condition, first index of the double asterisk
being zero, is implied by the first and embedded as the prefix test). -/
def isLogoMarker (l : List Char) : Bool :=
  "**logo".data.isPrefixOf (lowerL l) && "**".data.isPrefixOf (lowerL l)

/-- Extract the logo URL from the media section: find the bold Logo marker
line, take the first URL on it, or failing that the first URL on the
following line. -/
def extractLogo (osec : Option SectionContent) : List Char :=
  match osec with
  | none => []
  | some sec =>
    match sec.lines.findIdx? isLogoMarker with
    | none => []
    | some i =>
      match firstUrl (sec.lines.getD i []) with
      | some u => trimChars u
      | none =>
        if i + 1 < sec.lines.length then
          match firstUrl (sec.lines.getD (i + 1) []) with
          | some u => trimChars u
          | none => []
        else []

/-- The Images marker test: the lowercased line starts with the bold
images marker. -/
def isImagesMarker (l : List Char) : Bool :=
  "**images".data.isPrefixOf (lowerL l)

/-- The start index of the image-candidate range: the line after the
Images marker when present, otherwise the whole section. -/
def imagesStart (sec : SectionContent) : Nat :=
  match sec.lines.findIdx? isImagesMarker with
  | some i => i + 1
  | none => 0

/-- Parse image URLs: all URL matches in the candidate range, each trimmed,
skipping empty matches and matches equal to the extracted logo URL.  The
accumulator fold mirrors the source loop pushing into an array. -/
def parseImages (osec : Option SectionContent) : List (List Char) :=
  match osec with
  | none => []
  | some sec =>
    if sec.raw = [] then []
    else
      let logoUrl := extractLogo (some sec)
      let searchText := joinLines (sec.lines.drop (imagesStart sec))
      (urlMatches searchText).foldl
        (fun acc u =>
          let url := trimChars u
          if url ≠ [] ∧ url ≠ logoUrl then acc ++ [url] else acc) []

/-- The candidate URLs of the media section: every URL match in the
candidate range, before the logo exclusion. -/
def candidateUrls (osec : Option SectionContent) : List (List Char) :=
  match osec with
  | none => []
  | some sec =>
    if sec.raw = [] then []
    else urlMatches (joinLines (sec.lines.drop (imagesStart sec)))

/-- The Notes marker test: the lowercased line starts with the bold notes
marker. -/
def isNotesMarker (l : List Char) : Bool :=
  "**notes".data.isPrefixOf (lowerL l)

/-- Collect the note continuation lines: all following lines until one
starts with a bold marker, skipping empty lines (the source pushes only
lines of positive length). -/
def collectNotes : List (List Char) → List (List Char)
  | [] => []
  | l :: ls =>
    if "**".data.isPrefixOf l then []
    else if l ≠ [] then l :: collectNotes ls
    else collectNotes ls

/-- Index of the first colon of a line. -/
def colonIdx? (l : List Char) : Option Nat := l.findIdx? (· == ':')

/-- The same-line fragment of the notes: the text after the first colon of
the marker line, trimmed, with every asterisk removed, trimmed. -/
def sameLineFrag (markerLine : List Char) : List Char :=
  match colonIdx? markerLine with
  | none => []
  | some j =>
    trimChars ((trimChars (markerLine.drop (j + 1))).filter (fun c => c ≠ '*'))

/-- Parse the multi-line notes of the status section. -/
def parseNotes (osec : Option SectionContent) : List Char :=
  match osec with
  | none => []
  | some sec =>
    if sec.raw = [] then []
    else
      match sec.lines.findIdx? isNotesMarker with
      | none => []
      | some i =>
        let notesLines := collectNotes (sec.lines.drop (i + 1))
        let sameLine := sameLineFrag (sec.lines.getD i [])
        let allNotes := if sameLine ≠ [] then sameLine :: notesLines else notesLines
        trimChars (joinSpace allNotes)

/-- The notes extractor as the claim words it: collect all subsequent
lines (empty ones included) until a bold marker line or the section end,
and join the first fragment (if non-empty) and the collected lines with
single-space separators, trimming the result. -/
def parseNotesClaim (osec : Option SectionContent) : List Char :=
  match osec with
  | none => []
  | some sec =>
    match sec.lines.findIdx? isNotesMarker with
    | none => []
    | some i =>
      let notesLines := (sec.lines.drop (i + 1)).takeWhile
        (fun l => !"**".data.isPrefixOf l)
      let sameLine := sameLineFrag (sec.lines.getD i [])
      let allNotes := if sameLine ≠ [] then sameLine :: notesLines else notesLines
      trimChars (joinSpace allNotes)

/-- Parse the description: split the raw section text into lines, trim
each, discard empty lines, rejoin with blank lines between them. -/
def parseDescription (osec : Option SectionContent) : List Char :=
  match osec with
  | none => []
  | some sec =>
    if sec.raw = [] then []
    else
      List.intercalate ('\n' :: '\n' :: [])
        (((splitOnChar '\n' sec.raw).map trimChars).filter (fun l => l ≠ []))

/-- Title capture on one line: the regular expression of the source,
multiline flag, applied per line: a single hash, at least one whitespace
character, then a nonempty capture. -/
def titleOfLine (l : List Char) : Option (List Char) :=
  match l with
  | '#' :: rest =>
    match rest with
    | c :: _ =>
      if isWSB c then
        let afterWs := rest.dropWhile isWSB
        if afterWs ≠ [] then some afterWs
        else if rest.length ≥ 2 then some (rest.drop (rest.length - 1))
        else none
      else none
    | [] => none
  | _ => none

/-- The extracted title: the trimmed capture of the first line matching
the title pattern, or empty when no line matches. -/
def extractTitle (body : List Char) : List Char :=
  match (splitLines body).findSome? titleOfLine with
  | some cap => trimChars cap
  | none => []

/-!
## The project schema (src/types/project.schema.ts)

The zod object schema is embedded as a Boolean validity predicate on the
assembled record.  URL well-formedness and ISO-8601 datetime checking are
delegated by the source to the zod library (outside this repository);
they are modelled after the documented zod behaviour: `url` as a
scheme-colon-remainder shape without whitespace, `datetime` as the
UTC-anchored ISO-8601 pattern.
-/

structure Organization where
  name : String
  short_name : String
  url : String
deriving DecidableEq

structure Status where
  state : String
  usage : String
  notes : String
deriving DecidableEq

structure Media where
  logo : String
  images : List String
deriving DecidableEq

structure Links where
  homepage : String
  repository : String
  documentation : String
deriving DecidableEq

structure Timestamps where
  created_at : String
  last_updated_at : String
deriving DecidableEq

structure Project where
  id : String
  issue_number : Int
  title : String
  slug : String
  description : String
  organization : Organization
  status : Status
  tags : List String
  media : Media
  links : Links
  timestamps : Timestamps
deriving DecidableEq

/-- Modelled from the spec: URL well-formedness (the source delegates to
the zod url check, whose parser lives outside this repository): a
nonempty ASCII-letter scheme, a colon, a nonempty remainder, and no
whitespace anywhere. -/
def isValidUrl (s : String) : Bool :=
  let l := s.data
  let scheme := l.takeWhile isAlphaB
  scheme ≠ [] && l.getD scheme.length ' ' == ':' &&
    scheme.length + 1 < l.length && l.all nonSpaceB

/-- Modelled from the spec: the zod ISO-8601 datetime check (outside this
repository): year-month-day, the letter T, hour-minute-second, an optional
fractional part, and the UTC designator Z, with all-digit components. -/
def isValidDatetime (s : String) : Bool :=
  match s.data with
  | y1 :: y2 :: y3 :: y4 :: '-' :: m1 :: m2 :: '-' :: d1 :: d2 :: 'T' ::
      h1 :: h2 :: ':' :: n1 :: n2 :: ':' :: s1 :: s2 :: rest =>
    [y1, y2, y3, y4, m1, m2, d1, d2, h1, h2, n1, n2, s1, s2].all isDigitB &&
      (match rest with
       | ['Z'] => true
       | '.' :: fs =>
         (match fs.reverse with
          | 'Z' :: ds => ds ≠ [] && ds.all isDigitB
          | _ => false)
       | _ => false)
  | _ => false

/-- The closed state enumeration. -/
def validState (s : String) : Bool :=
  s == "active" || s == "paused" || s == "archived"

/-- The closed usage enumeration. -/
def validUsage (s : String) : Bool :=
  s == "experimental" || s == "used" || s == "widely-used"

/-- The slug constraint of the schema: nonempty and matching the anchored
character-class pattern of lowercase letters, digits and hyphens. -/
def slugOk (s : String) : Bool := s.data ≠ [] && s.data.all slugCharB

/-- The organization object schema. -/
def checkOrganization (o : Organization) : Bool :=
  1 ≤ o.name.length && 1 ≤ o.short_name.length && o.short_name.length ≤ 50 &&
    isValidUrl o.url

/-- The status object schema (notes is an unconstrained string). -/
def checkStatus (st : Status) : Bool := validState st.state && validUsage st.usage

/-- The media object schema: the logo and every image must pass the url
check (the optional-with-default wrappers never see an absent value, since
the assembler always supplies a string). -/
def checkMedia (m : Media) : Bool :=
  isValidUrl m.logo && m.images.all isValidUrl

/-- The links object schema. -/
def checkLinks (l : Links) : Bool :=
  isValidUrl l.homepage && isValidUrl l.repository && isValidUrl l.documentation

/-- The timestamps object schema. -/
def checkTimestamps (t : Timestamps) : Bool :=
  isValidDatetime t.created_at && isValidDatetime t.last_updated_at

/-- The tags schema: nonempty strings, each of length at most fifty. -/
def checkTags (tags : List String) : Bool :=
  tags.all (fun t => 1 ≤ t.length) && tags.all (fun t => t.length ≤ 50)

/-- The full project schema gate (projectSchema.safeParse succeeding). -/
def projectSchemaCheck (p : Project) : Bool :=
  1 ≤ p.id.length && (0 < p.issue_number) &&
    1 ≤ p.title.length && p.title.length ≤ 200 &&
    slugOk p.slug &&
    1 ≤ p.description.length && p.description.length ≤ 2000 &&
    checkOrganization p.organization && checkStatus p.status &&
    checkTags p.tags && checkMedia p.media && checkLinks p.links &&
    checkTimestamps p.timestamps

/-!
## The parser main function (parseIssueBody of scripts/parse-issue.ts)
-/

/-- The parse failure modes: no level-1 title, a missing required field
(carrying the reported field key), or schema validation failure. -/
inductive ParseError where
  | missingTitle : ParseError
  | missingField : String → ParseError
  | schemaViolation : ParseError
deriving DecidableEq

/-- The seven required fields, as key-value pairs in the insertion order
of the source object literal. -/
def requiredFields (body : String) : List (String × List Char) :=
  [("title", extractTitle body.data),
   ("description", parseDescription (extractSection body "Description")),
   ("orgName", extractKeyValue (extractSection body "Organization") "Name"),
   ("orgShortName", extractKeyValue (extractSection body "Organization") "Short name"),
   ("orgUrl", extractKeyValue (extractSection body "Organization") "Website"),
   ("statusState", extractKeyValue (extractSection body "Project Status") "State"),
   ("homepage", extractKeyValue (extractSection body "Links") "Homepage")]

/-- Is a required value missing (falsy or trimming to the empty string)? -/
def emptyVal (v : List Char) : Bool := v == [] || trimChars v == []

/-- The key of the first missing required field, if any. -/
def firstEmptyKey (l : List (String × List Char)) : Option String :=
  (l.find? (fun kv => emptyVal kv.2)).map (fun kv => kv.1)

/-- Assemble the raw record from the extracted pieces, exactly as the
source object literal does (usage falls back to the literal "unknown",
the images exclude the logo a second time). -/
def assembleRaw (body : String) (issueNumber : Int) (createdAt updatedAt : String) :
    Project :=
  let title := extractTitle body.data
  let slug := slugifyCore title
  let orgSection := extractSection body "Organization"
  let statusSection := extractSection body "Project Status"
  let mediaSection := extractSection body "Media"
  let linksSection := extractSection body "Links"
  let logo := extractLogo mediaSection
  let usage := extractKeyValue statusSection "Usage"
  { id := ⟨slug⟩
    issue_number := issueNumber
    title := ⟨title⟩
    slug := ⟨slug⟩
    description := ⟨parseDescription (extractSection body "Description")⟩
    organization :=
      { name := ⟨extractKeyValue orgSection "Name"⟩
        short_name := ⟨extractKeyValue orgSection "Short name"⟩
        url := ⟨extractKeyValue orgSection "Website"⟩ }
    status :=
      { state := ⟨extractKeyValue statusSection "State"⟩
        usage := if usage = [] then "unknown" else ⟨usage⟩
        notes := ⟨parseNotes statusSection⟩ }
    tags := (parseTags (extractSection body "Tags")).map String.mk
    media :=
      { logo := ⟨logo⟩
        images := ((parseImages mediaSection).filter (fun u => u ≠ logo)).map String.mk }
    links :=
      { homepage := ⟨extractKeyValue linksSection "Homepage"⟩
        repository := ⟨extractKeyValue linksSection "Repository"⟩
        documentation := ⟨extractKeyValue linksSection "Documentation"⟩ }
    timestamps := { created_at := createdAt, last_updated_at := updatedAt } }

/-- Parse a GitHub issue body into a project record, reporting the failure
mode: reject on a missing title, then on the first missing required field
(whose key the source logs before returning null), then on schema
validation failure. -/
def parseIssueBodyE (body : String) (issueNumber : Int) (createdAt updatedAt : String) :
    Except ParseError Project :=
  if extractTitle body.data = [] then Except.error ParseError.missingTitle
  else
    match firstEmptyKey (requiredFields body) with
    | some name => Except.error (ParseError.missingField name)
    | none =>
      if projectSchemaCheck (assembleRaw body issueNumber createdAt updatedAt) then
        Except.ok (assembleRaw body issueNumber createdAt updatedAt)
      else Except.error ParseError.schemaViolation

/-- The source function returns the record or null; null is the erasure of
the reported failure mode. -/
def parseIssueBody (body : String) (issueNumber : Int) (createdAt updatedAt : String) :
    Option Project :=
  (parseIssueBodyE body issueNumber createdAt updatedAt).toOption

/-!
## Concrete documents used by the theorems
-/

/-- A complete, schema-valid issue body whose title begins with a hyphen. -/
def fixtureBody : String :=
  "# -Foo\n## Description\nA mapping tool.\n## Organization\n**Name:** Digital Democracy\n**Short name:** digidem\n**Website:** https://example.org\n## Project Status\n**State:** active\n**Usage:** used\n**Notes:** fine\n## Tags\nCoMapeo, Mapping\n## Media\n**Logo:** https://example.org/logo.png\n**Images:**\nhttps://example.org/a.png\n## Links\n**Homepage:** https://example.org/\n**Repository:** https://example.org/repo\n**Documentation:** https://example.org/docs\n"

/-- The same issue body with the Usage line removed. -/
def fixtureNoUsage : String :=
  "# -Foo\n## Description\nA mapping tool.\n## Organization\n**Name:** Digital Democracy\n**Short name:** digidem\n**Website:** https://example.org\n## Project Status\n**State:** active\n**Notes:** fine\n## Tags\nCoMapeo, Mapping\n## Media\n**Logo:** https://example.org/logo.png\n**Images:**\nhttps://example.org/a.png\n## Links\n**Homepage:** https://example.org/\n**Repository:** https://example.org/repo\n**Documentation:** https://example.org/docs\n"

/-- An issue body with a title and a description but an empty Organization
section. -/
def fixtureEmptyOrg : String := "# Proj\n## Description\nSome text.\n## Organization\n"

/-- A well-formed timestamp argument. -/
def fixtureTs : String := "2026-02-03T18:34:20Z"

/-- A status section whose notes have an interior empty line. -/
def fixtureNotesBody : String := "## Project Status\n**Notes:** start\nmore\n\nend\n"

/-!
## Character-level helper lemmas
-/

theorem toLowerCh_of_notUpper {c : Char} (h : isUpperB c = false) : toLowerCh c = c := by
  apply dif_neg
  simp only [isUpperB, cn, Bool.and_eq_false_iff] at h
  rcases h with h | h <;> simp only [Nat.decLe, decide_eq_false_iff_not] at h <;> omega

theorem isUpperB_toLowerCh (c : Char) : isUpperB (toLowerCh c) = false := by
  unfold toLowerCh
  by_cases h : 65 ≤ c.toNat ∧ c.toNat ≤ 90
  · rw [dif_pos h]
    have : cn ⟨⟨BitVec.ofNatLt (c.toNat + 32) (by omega)⟩, Or.inl (by
        show c.toNat + 32 < 55296
        omega)⟩ = c.toNat + 32 := rfl
    simp only [isUpperB, this, Bool.and_eq_false_iff, decide_eq_false_iff_not]
    omega
  · rw [dif_neg h]
    simp only [isUpperB, cn, Bool.and_eq_false_iff, decide_eq_false_iff_not]
    omega

theorem isWSB_false_of (c : Char) (h : isWSB c = true → False) : isWSB c = false := by
  cases hw : isWSB c
  · rfl
  · exact absurd (h hw) (fun f => f)

/-!
## Trim helper lemmas
-/

theorem dropWhile_eq_self_of (p : α → Bool) (l : List α)
    (h : ∀ c ∈ l, p c = false) : l.dropWhile p = l := by
  cases l with
  | nil => rfl
  | cons a t =>
    rw [List.dropWhile_cons_of_neg]
    simp [h a (List.mem_cons_self a t)]

theorem trimChars_eq_self_of {l : List Char} (h : ∀ c ∈ l, isWSB c = false) :
    trimChars l = l := by
  unfold trimChars
  rw [dropWhile_eq_self_of _ _ h]
  rw [dropWhile_eq_self_of _ _ (fun c hc => h c (List.mem_reverse.mp hc))]
  exact List.reverse_reverse l

theorem mem_trimChars {c : Char} {l : List Char} (h : c ∈ trimChars l) : c ∈ l := by
  unfold trimChars at h
  rw [List.mem_reverse] at h
  have h1 := List.dropWhile_sublist (l := (l.dropWhile isWSB).reverse) (p := isWSB)
  have h2 := h1.mem h
  rw [List.mem_reverse] at h2
  exact (List.dropWhile_sublist (l := l) (p := isWSB)).mem h2

/-!
## Claim C7: tag parsing
-/

/-- Claim C7: for every Tags section, the tag extractor returns the raw
section text split on commas with each piece trimmed and empty pieces
dropped, preserving source order and duplicates; an absent or empty
section yields the empty sequence; the section text
"CoMapeo, Mapping, Spreadsheet" yields exactly those three tags (the last
conjunct shows a duplicate- and order-preserving instance). -/
theorem C7_parseTags_contract :
    parseTags none = [] ∧
    (∀ lines, parseTags (some ⟨[], lines⟩) = []) ∧
    (∀ sec : SectionContent,
      parseTags (some sec) =
        ((splitOnChar ',' sec.raw).map trimChars).filter (fun t => t ≠ [])) ∧
    parseTags (some ⟨"CoMapeo, Mapping, Spreadsheet".data, []⟩) =
      ["CoMapeo".data, "Mapping".data, "Spreadsheet".data] ∧
    parseTags (some ⟨"b, ,b".data, []⟩) = ["b".data, "b".data] := by
  refine ⟨rfl, fun lines => rfl, fun sec => ?_, by decide, by decide⟩
  by_cases h : sec.raw = []
  · simp [parseTags, h, splitOnChar, trimChars]
  · simp [parseTags, h]

/-!
## The success shape of the parser
-/

theorem parse_some_iff (body : String) (n : Int) (ca ua : String) (rec : Project) :
    parseIssueBody body n ca ua = some rec ↔
      extractTitle body.data ≠ [] ∧
      firstEmptyKey (requiredFields body) = none ∧
      projectSchemaCheck (assembleRaw body n ca ua) = true ∧
      rec = assembleRaw body n ca ua := by
  unfold parseIssueBody parseIssueBodyE
  by_cases ht : extractTitle body.data = []
  · simp [ht, Except.toOption]
  · rw [if_neg ht]
    cases hk : firstEmptyKey (requiredFields body) with
    | some name => simp [ht, hk, Except.toOption]
    | none =>
      by_cases hv : projectSchemaCheck (assembleRaw body n ca ua) = true
      · simp [ht, hk, hv, Except.toOption, eq_comm]
      · simp [ht, hk, hv, Except.toOption]

/-!
## Claim C4: empty usage is defaulted then rejected
-/

/-- Claim C4: when the Project Status section yields no Usage value, the
assembler fills usage with the literal "unknown"; "unknown" is outside
the closed usage enumeration; and the parse of such a document returns
no record. -/
theorem C4_unknown_usage_rejected :
    validUsage "unknown" = false ∧
    (∀ (body : String) (n : Int) (ca ua : String),
      extractKeyValue (extractSection body "Project Status") "Usage" = [] →
      (assembleRaw body n ca ua).status.usage = "unknown" ∧
      parseIssueBody body n ca ua = none) := by
  refine ⟨by decide, fun body n ca ua h => ?_⟩
  have husage : (assembleRaw body n ca ua).status.usage = "unknown" := by
    simp [assembleRaw, h]
  refine ⟨husage, ?_⟩
  cases hP : parseIssueBody body n ca ua with
  | none => rfl
  | some rec =>
    obtain ⟨-, -, hval, -⟩ := (parse_some_iff body n ca ua rec).mp hP
    have hu : validUsage "unknown" = false := by decide
    have hfalse : projectSchemaCheck (assembleRaw body n ca ua) = false := by
      simp only [projectSchemaCheck, checkStatus, husage, hu, Bool.and_false,
        Bool.false_and]
    rw [hval] at hfalse
    exact absurd hfalse (by decide)

/-- Witness for C4 at a concrete document lacking a Usage line. -/
theorem C4_witness :
    (assembleRaw fixtureNoUsage 1 fixtureTs fixtureTs).status.usage = "unknown" ∧
    parseIssueBody fixtureNoUsage 1 fixtureTs fixtureTs = none :=
  C4_unknown_usage_rejected.2 fixtureNoUsage 1 fixtureTs fixtureTs (by decide)

/-!
## Claim C5: required-field rejection with the specific field reported
-/

/-- Claim C5: for every document with a title for which some required
field extracts as empty, the parse returns no record and the failure
reports the key of the first missing field (the source logs that key and
returns null); in particular the concrete document with a title and a
description but an empty Organization section is rejected citing the
organization-name key (the assembler key for organization.name is the
literal "orgName"). -/
theorem C5_required_field_rejection :
    (∀ (body : String) (n : Int) (ca ua : String),
      extractTitle body.data ≠ [] →
      (∃ kv ∈ requiredFields body, emptyVal kv.2 = true) →
      ∃ name, firstEmptyKey (requiredFields body) = some name ∧
        parseIssueBodyE body n ca ua = Except.error (ParseError.missingField name) ∧
        parseIssueBody body n ca ua = none) ∧
    parseIssueBodyE fixtureEmptyOrg 7 fixtureTs fixtureTs =
      Except.error (ParseError.missingField "orgName") := by
  constructor
  · intro body n ca ua htitle hex
    have hsome : ((requiredFields body).find? (fun kv => emptyVal kv.2)).isSome := by
      rw [List.find?_isSome]
      obtain ⟨kv, hm, hp⟩ := hex
      exact ⟨kv, hm, hp⟩
    cases hf : (requiredFields body).find? (fun kv => emptyVal kv.2) with
    | none => rw [hf] at hsome; simp at hsome
    | some kv0 =>
      refine ⟨kv0.1, ?_, ?_, ?_⟩
      · simp [firstEmptyKey, hf]
      · simp [parseIssueBodyE, htitle, firstEmptyKey, hf]
      · simp [parseIssueBody, parseIssueBodyE, htitle, firstEmptyKey, hf,
          Except.toOption]
  · rfl

/-- Witness for C5 at the concrete document with an empty Organization
section. -/
theorem C5_witness :
    ∃ name, firstEmptyKey (requiredFields fixtureEmptyOrg) = some name ∧
      parseIssueBodyE fixtureEmptyOrg 7 fixtureTs fixtureTs =
        Except.error (ParseError.missingField name) ∧
      parseIssueBody fixtureEmptyOrg 7 fixtureTs fixtureTs = none :=
  C5_required_field_rejection.1 fixtureEmptyOrg 7 fixtureTs fixtureTs (by decide)
    ⟨("orgName", []), by decide, by decide⟩

/-!
## Claim C10: key matching is anchored at the line start
-/

theorem matchKeyLine_shortNamePlain (v : List Char) :
    matchKeyLine "Name" ("Short name: ".data ++ v) = none := rfl

theorem matchKeyLine_shortNameBold (v : List Char) :
    matchKeyLine "Name" ("**Short name:** ".data ++ v) = none := rfl

theorem matchKeyLine_namePlain (v : List Char) :
    matchKeyLine "Name" ("Name: ".data ++ v) = some (' ' :: v) := rfl

theorem cleanValue_space (v : List Char) : cleanValue (' ' :: v) = cleanValue v := by
  unfold cleanValue trimChars
  rw [List.dropWhile_cons_of_pos (by decide)]

/-- Counterexample to claim C10: in a section holding the lines
"Name: **" and "Short name: digidem", the Name value cleans to the empty
string, so the extractor falls back to the following line and returns that
line whole - not the value of the Name line (which is empty), refuting
"extracting the key Name returns the value of the Name line". -/
theorem C10_counterexample :
    extractKeyValue
      (some ⟨"Name: **\nShort name: digidem".data,
             ["Name: **".data, "Short name: digidem".data]⟩) "Name" =
      "Short name: digidem".data ∧
    cleanValue " **".data = [] := by
  constructor
  · rfl
  · rfl

/-- Step lemma for the key-value scan: a matching line with a non-empty
cleaned value returns that value. -/
theorem go_cons_some {key : String} {line : List Char} {rest : List (List Char)}
    {captured : List Char} (h : matchKeyLine key line = some captured)
    (hne : cleanValue captured ≠ []) :
    extractKeyValue.extractKeyValueGo key (line :: rest) = cleanValue captured := by
  rw [extractKeyValue.extractKeyValueGo, h]
  simp [hne]

/-- Step lemma for the key-value scan: a non-matching line is skipped. -/
theorem go_cons_none {key : String} {line : List Char} {rest : List (List Char)}
    (h : matchKeyLine key line = none) :
    extractKeyValue.extractKeyValueGo key (line :: rest) =
      extractKeyValue.extractKeyValueGo key rest := by
  rw [extractKeyValue.extractKeyValueGo, h]

/-- Claim C10 as amended: a line matches the key Name only when the key,
after at most two leading asterisks, occupies the start of the line and is
immediately followed by at most two asterisks and a colon, so no
Short-name line ever matches; consequently, whenever the Name value is
non-empty after cleaning, extraction returns exactly that value whatever
the order of the two lines; when the cleaned value is empty the extractor
falls back to the following line. -/
theorem C10_amended :
    (∀ v, matchKeyLine "Name" ("Short name: ".data ++ v) = none) ∧
    (∀ v, matchKeyLine "Name" ("**Short name:** ".data ++ v) = none) ∧
    (∀ (raw1 raw2 u v : List Char), cleanValue v ≠ [] →
      extractKeyValue
        (some ⟨raw1, [("Name: ".data ++ v), ("Short name: ".data ++ u)]⟩) "Name" =
        cleanValue v ∧
      extractKeyValue
        (some ⟨raw2, [("Short name: ".data ++ u), ("Name: ".data ++ v)]⟩) "Name" =
        cleanValue v) := by
  refine ⟨matchKeyLine_shortNamePlain, matchKeyLine_shortNameBold, ?_⟩
  intro raw1 raw2 u v hv
  have hv2 : cleanValue (' ' :: v) ≠ [] := by rw [cleanValue_space]; exact hv
  constructor
  · show extractKeyValue.extractKeyValueGo "Name"
      [("Name: ".data ++ v), ("Short name: ".data ++ u)] = cleanValue v
    rw [go_cons_some (matchKeyLine_namePlain v) hv2, cleanValue_space]
  · show extractKeyValue.extractKeyValueGo "Name"
      [("Short name: ".data ++ u), ("Name: ".data ++ v)] = cleanValue v
    rw [go_cons_none (matchKeyLine_shortNamePlain u),
      go_cons_some (matchKeyLine_namePlain v) hv2, cleanValue_space]

/-- Witness for C10 at concrete line contents. -/
theorem C10_witness :
    extractKeyValue
      (some ⟨"r".data, [("Name: ".data ++ "DD".data),
                        ("Short name: ".data ++ "digidem".data)]⟩) "Name" =
      cleanValue "DD".data ∧
    extractKeyValue
      (some ⟨"r".data, [("Short name: ".data ++ "digidem".data),
                        ("Name: ".data ++ "DD".data)]⟩) "Name" =
      cleanValue "DD".data :=
  C10_amended.2.2 "r".data "r".data "digidem".data "DD".data (by decide)

/-!
## Claim C9: notes extraction
-/

/-- Counterexample to claim C9: with an interior empty line between two
continuation lines, the extractor drops the empty line before joining, so
the result has a single interior space where collecting all subsequent
lines (as the claim words it) would give a double space. -/
theorem C9_counterexample :
    parseNotes (extractSection fixtureNotesBody "Project Status") =
      "start more end".data ∧
    parseNotesClaim (extractSection fixtureNotesBody "Project Status") =
      "start more  end".data ∧
    "start more end".data ≠ "start more  end".data := by
  refine ⟨rfl, rfl, by decide⟩

theorem collectNotes_eq (ls : List (List Char)) :
    collectNotes ls =
      (ls.takeWhile (fun l => !"**".data.isPrefixOf l)).filter (fun l => l ≠ []) := by
  induction ls with
  | nil => rfl
  | cons l ls ih =>
    by_cases hb : "**".data.isPrefixOf l
    · simp [collectNotes, hb, List.takeWhile_cons]
    · by_cases hn : l = []
      · subst hn
        simp [collectNotes, hb, List.takeWhile_cons, ih]
      · simp [collectNotes, hb, hn, List.takeWhile_cons, ih]

/-- Claim C9 as amended: for a Project Status section with a bold Notes
marker, the extractor returns the same-line fragment after the colon
(bold markers stripped, kept only if non-empty) followed by all subsequent
non-empty lines up to the first bold-marker line or the section end,
joined with single spaces and trimmed, preserving line order; an absent
marker yields the empty string. -/
theorem C9_amended :
    (∀ sec : SectionContent, sec.lines.findIdx? isNotesMarker = none →
      parseNotes (some sec) = []) ∧
    (∀ (sec : SectionContent) (i : Nat), sec.raw ≠ [] →
      sec.lines.findIdx? isNotesMarker = some i →
      parseNotes (some sec) = trimChars (joinSpace
        ((if sameLineFrag (sec.lines.getD i []) = []
            then []
            else [sameLineFrag (sec.lines.getD i [])]) ++
         ((sec.lines.drop (i + 1)).takeWhile
            (fun l => !"**".data.isPrefixOf l)).filter (fun l => l ≠ [])))) := by
  constructor
  · intro sec h
    simp only [parseNotes]
    by_cases hr : sec.raw = [] <;> simp [hr, h]
  · intro sec i hr hidx
    simp only [parseNotes]
    rw [if_neg hr, hidx]
    simp only [collectNotes_eq]
    by_cases h : sameLineFrag (sec.lines[i]?.getD []) = [] <;>
      simp [List.getD, h]

/-- Witness for C9 at a concrete section. -/
theorem C9_witness :
    parseNotes (some ⟨"**Notes:** a\nb\n\nc".data,
        ["**Notes:** a".data, "b".data, [], "c".data]⟩) =
      trimChars (joinSpace
        ((if sameLineFrag (["**Notes:** a".data, "b".data, [], "c".data].getD 0 []) = []
            then []
            else [sameLineFrag (["**Notes:** a".data, "b".data, [], "c".data].getD 0 [])]) ++
         ((["**Notes:** a".data, "b".data, [], "c".data].drop 1).takeWhile
            (fun l => !"**".data.isPrefixOf l)).filter (fun l => l ≠ []))) :=
  C9_amended.2 ⟨"**Notes:** a\nb\n\nc".data,
    ["**Notes:** a".data, "b".data, [], "c".data]⟩ 0 (by decide) (by decide)

/-!
## Claim C6: logo exclusion from the images
-/

theorem isWSB_isUpperB {c : Char} (h : isWSB c = true) : isUpperB c = false := by
  simp only [isWSB, Bool.or_eq_true, beq_iff_eq] at h
  simp only [isUpperB, Bool.and_eq_false_iff, decide_eq_false_iff_not]
  unfold cn at h ⊢
  omega

theorem startsUrl_nonSpace {c : Char} {cs : List Char}
    (h : startsUrl (c :: cs) = true) : nonSpaceB c = true := by
  cases hw : isWSB c
  · simp [nonSpaceB, hw]
  · exfalso
    have hc : toLowerCh c = c := toLowerCh_of_notUpper (isWSB_isUpperB hw)
    have e1 : ("http://".data : List Char) = 'h' :: "ttp://".data := rfl
    have e2 : ("https://".data : List Char) = 'h' :: "ttps://".data := rfl
    simp only [startsUrl, lowerL, List.map_cons, hc, e1, e2, Bool.or_eq_true,
      Bool.and_eq_true, List.isPrefixOf_cons₂, beq_iff_eq] at h
    have hch : c = 'h' := by
      rcases h with ⟨⟨h1, -⟩, -⟩ | ⟨⟨h1, -⟩, -⟩ <;> exact h1.symm
    rw [hch] at hw
    exact absurd hw (by decide)

theorem urlScanF_mem (f : Nat) : ∀ (l u : List Char), u ∈ urlScanF f l →
    u ≠ [] ∧ ∀ c ∈ u, isWSB c = false := by
  induction f with
  | zero => intro l u h; simp [urlScanF] at h
  | succ f ih =>
    intro l u h
    cases l with
    | nil => simp [urlScanF] at h
    | cons c cs =>
      rw [urlScanF] at h
      by_cases hs : startsUrl (c :: cs) = true
      · rw [if_pos hs] at h
        rcases List.mem_cons.mp h with rfl | hm
        · constructor
          · rw [List.takeWhile_cons_of_pos (startsUrl_nonSpace hs)]
            simp
          · intro x hx
            have hns := List.mem_takeWhile_imp hx
            simpa [nonSpaceB] using hns
        · exact ih _ _ hm
      · rw [if_neg hs] at h
        exact ih _ _ h

theorem mem_urlMatches_facts {l u : List Char} (h : u ∈ urlMatches l) :
    u ≠ [] ∧ trimChars u = u := by
  obtain ⟨h1, h2⟩ := urlScanF_mem _ _ _ h
  exact ⟨h1, trimChars_eq_self_of h2⟩

theorem foldl_push_filter (logo : List Char) (l : List (List Char))
    (acc : List (List Char)) :
    l.foldl (fun acc u =>
      let url := trimChars u
      if url ≠ [] ∧ url ≠ logo then acc ++ [url] else acc) acc =
    acc ++ (l.map trimChars).filter (fun url => url ≠ [] ∧ url ≠ logo) := by
  induction l generalizing acc with
  | nil => simp
  | cons u l ih =>
    by_cases h : trimChars u ≠ [] ∧ trimChars u ≠ logo
    · simp [List.foldl_cons, h, ih]
    · simp [List.foldl_cons, h, ih]

theorem parseImages_eq (osec : Option SectionContent) :
    parseImages osec = (candidateUrls osec).filter (fun u => u ≠ extractLogo osec) := by
  cases osec with
  | none => rfl
  | some sec =>
    by_cases hr : sec.raw = []
    · simp [parseImages, candidateUrls, hr]
    · simp only [parseImages, candidateUrls, hr, if_neg, ite_false]
      rw [foldl_push_filter]
      have hmap : (urlMatches (joinLines (sec.lines.drop (imagesStart sec)))).map
          trimChars = urlMatches (joinLines (sec.lines.drop (imagesStart sec))) := by
        rw [List.map_congr_left (fun u hu => (mem_urlMatches_facts hu).2)]
        exact List.map_id _
      rw [List.nil_append, hmap]
      exact List.filter_congr (fun u hu => by
        have hne := (mem_urlMatches_facts hu).1
        simp [hne])

/-- Claim C6: the images produced by the media extractor are exactly the
candidate URLs with every occurrence of the extracted logo URL removed
(order preserved, no further de-duplication), so the images never contain
the logo URL; and the media.images of every accepted record never
contains its media.logo. -/
theorem C6_logo_image_exclusion :
    (∀ osec, parseImages osec =
      (candidateUrls osec).filter (fun u => u ≠ extractLogo osec)) ∧
    (∀ osec u, u ∈ parseImages osec → u ≠ extractLogo osec) ∧
    (∀ (body : String) (n : Int) (ca ua : String) (rec : Project),
      parseIssueBody body n ca ua = some rec →
      rec.media.logo ∉ rec.media.images) := by
  refine ⟨parseImages_eq, fun osec u hu => ?_, fun body n ca ua rec hP hmem => ?_⟩
  · rw [parseImages_eq] at hu
    have := List.mem_filter.mp hu
    simpa using this.2
  · obtain ⟨-, -, -, hrec⟩ := (parse_some_iff body n ca ua rec).mp hP
    subst hrec
    simp only [assembleRaw] at hmem
    rw [List.mem_map] at hmem
    obtain ⟨u, hu, he⟩ := hmem
    rw [List.mem_filter] at hu
    have heq : u = extractLogo (extractSection body "Media") := by
      have hdata := congrArg String.data he
      simpa using hdata
    have hne := hu.2
    rw [heq] at hne
    simp at hne

/-- Witness for C6 at the concrete fixture document. -/
theorem C6_witness :
    (assembleRaw fixtureBody 1 fixtureTs fixtureTs).media.logo ∉
      (assembleRaw fixtureBody 1 fixtureTs fixtureTs).media.images :=
  C6_logo_image_exclusion.2.2 fixtureBody 1 fixtureTs fixtureTs
    (assembleRaw fixtureBody 1 fixtureTs fixtureTs) (by decide)

/-!
## Claim C8: section extraction contract
-/

theorem findIdx?_first_match (p : List Char → Bool) (pre : List (List Char))
    (h : List Char) (rest : List (List Char))
    (hpre : ∀ l ∈ pre, p l = false) (hh : p h = true) :
    (pre ++ h :: rest).findIdx? p = some pre.length := by
  induction pre with
  | nil => simp [List.findIdx?_cons, hh]
  | cons a t ih =>
    have ha := hpre a (List.mem_cons_self a t)
    have iht := ih (fun l hl => hpre l (List.mem_cons_of_mem a hl))
    simp [List.findIdx?_cons, ha, List.findIdx?_succ, iht]

/-- Claim C8: the section extractor returns no section exactly when no
line is a heading (one to three hash characters, whitespace, text) whose
trimmed, case-folded text equals the case-folded target; otherwise the
first such heading wins and the section is precisely the following lines
up to but excluding the next heading or horizontal-rule line, with the
raw text rejoined by newline then trimmed and the lines individually
trimmed. -/
theorem C8_extractSection_contract :
    (∀ (body name : String), extractSection body name = none ↔
      ∀ l ∈ splitLines body.data, isTargetHeading name l = false) ∧
    (∀ (body name : String) (pre : List (List Char)) (h : List Char)
        (rest : List (List Char)),
      splitLines body.data = pre ++ h :: rest →
      (∀ l ∈ pre, isTargetHeading name l = false) →
      isTargetHeading name h = true →
      extractSection body name =
        some ⟨trimChars (joinLines (rest.takeWhile (fun l => !stopLine l))),
              (rest.takeWhile (fun l => !stopLine l)).map trimChars⟩) := by
  constructor
  · intro body name
    constructor
    · intro h
      cases hf : (splitLines body.data).findIdx? (isTargetHeading name) with
      | none => exact List.findIdx?_eq_none_iff.mp hf
      | some i => simp [extractSection, hf] at h
    · intro hall
      simp [extractSection, List.findIdx?_eq_none_iff.mpr hall]
  · intro body name pre h rest hsplit hpre hh
    have hidx : (splitLines body.data).findIdx? (isTargetHeading name) =
        some pre.length := by
      rw [hsplit]
      exact findIdx?_first_match _ pre h rest hpre hh
    have hdrop : (splitLines body.data).drop (pre.length + 1) = rest := by
      rw [hsplit,
        show pre ++ h :: rest = (pre ++ [h]) ++ rest by simp,
        show pre.length + 1 = (pre ++ [h]).length by simp]
      exact List.drop_left _ _
    simp only [extractSection, hidx, hdrop]

/-- Witness for C8 at a concrete document: the Tags section of a document
with a preceding non-heading line, a horizontal rule and a later section. -/
theorem C8_witness :
    extractSection "Intro\n## Tags\na, b\n---\n## Media\nx" "Tags" =
      some ⟨trimChars (joinLines
              (["a, b".data, "---".data, "## Media".data, "x".data].takeWhile
                (fun l => !stopLine l))),
            (["a, b".data, "---".data, "## Media".data, "x".data].takeWhile
                (fun l => !stopLine l)).map trimChars⟩ :=
  C8_extractSection_contract.2 "Intro\n## Tags\na, b\n---\n## Media\nx" "Tags"
    ["Intro".data] "## Tags".data
    ["a, b".data, "---".data, "## Media".data, "x".data]
    (by decide) (by decide) (by decide)

/-!
## Claim C3: slug shape of accepted records
-/

/-- Counterexample to claim C3: a complete, schema-valid document with
title "-Foo" is accepted with slug "-foo", which has a leading hyphen:
the schema character class admits hyphens anywhere, and the parser slug
generator does not strip edge hyphens. -/
theorem C3_counterexample :
    (parseIssueBody fixtureBody 1 fixtureTs fixtureTs).map (fun r => r.slug) =
      some "-foo" ∧
    "-foo".data.head? = some '-' := by
  exact ⟨by decide, by decide⟩

/-- Claim C3 as amended: every accepted record has a nonempty slug drawn
from the class of lowercase letters, digits and hyphens (the schema
regex); leading or trailing hyphens are not excluded. -/
theorem C3_amended (body : String) (n : Int) (ca ua : String) (rec : Project)
    (hP : parseIssueBody body n ca ua = some rec) :
    rec.slug.data ≠ [] ∧ ∀ c ∈ rec.slug.data, slugCharB c = true := by
  obtain ⟨-, -, hval, hrec⟩ := (parse_some_iff body n ca ua rec).mp hP
  have hslug : slugOk rec.slug = true := by
    subst hrec
    simp only [projectSchemaCheck, Bool.and_eq_true] at hval
    exact hval.1.1.1.1.1.1.1.1.2
  simp only [slugOk, Bool.and_eq_true] at hslug
  refine ⟨by simpa using hslug.1, fun c hc => ?_⟩
  exact List.all_eq_true.mp hslug.2 c hc

/-- Witness for C3 at the concrete fixture document. -/
theorem C3_witness :
    (assembleRaw fixtureBody 1 fixtureTs fixtureTs).slug.data ≠ [] ∧
    ∀ c ∈ (assembleRaw fixtureBody 1 fixtureTs fixtureTs).slug.data,
      slugCharB c = true :=
  C3_amended fixtureBody 1 fixtureTs fixtureTs
    (assembleRaw fixtureBody 1 fixtureTs fixtureTs) (by decide)

/-!
## Claim C1: the slug contract and the two slug generators
-/

theorem ws_not_alnum {c : Char} (h : isWSB c = true) : isAlnumLCB c = false := by
  simp only [isWSB, Bool.or_eq_true, beq_iff_eq] at h
  simp only [isAlnumLCB, isLowerB, isDigitB, Bool.or_eq_false_iff,
    Bool.and_eq_false_iff, decide_eq_false_iff_not]
  unfold cn at h ⊢
  omega

theorem alnum_ne_hyphen {c : Char} (h : isAlnumLCB c = true) : c ≠ '-' := by
  intro he
  rw [he] at h
  exact absurd h (by decide)

theorem stripLead_cons_ne {c : Char} (t : List Char) (h : c ≠ '-') :
    stripLead (c :: t) = c :: t := by
  simp [stripLead, h]

theorem stripLead_cons_hyphen (t : List Char) : stripLead ('-' :: t) = t := by
  simp [stripLead]

theorem stripTrail_cons {c : Char} {x : List Char} (h : x ≠ []) :
    stripTrail (c :: x) = c :: stripTrail x := by
  cases x with
  | nil => exact absurd rfl h
  | cons b t => rfl

theorem runsGo_true_append (w m : List Char)
    (hw : ∀ c ∈ w, isAlnumLCB c = false) :
    runsGo true (w ++ m) = runsGo true m := by
  induction w with
  | nil => rfl
  | cons a t ih =>
    have ha := hw a (List.mem_cons_self a t)
    rw [List.cons_append, runsGo, if_neg (by simp [ha]), if_pos rfl]
    exact ih (fun c hc => hw c (List.mem_cons_of_mem a hc))

theorem runsGo_false_append_run (w m : List Char) (hne : w ≠ [])
    (hw : ∀ c ∈ w, isAlnumLCB c = false) :
    runsGo false (w ++ m) = '-' :: runsGo true (w.tail ++ m) := by
  cases w with
  | nil => exact absurd rfl hne
  | cons a t =>
    have ha := hw a (List.mem_cons_self a t)
    rw [List.cons_append, runsGo, if_neg (by simp [ha]), if_neg (by simp)]
    rfl

theorem runsGo_false_eq_nil_iff (l : List Char) : runsGo false l = [] ↔ l = [] := by
  cases l with
  | nil => simp [runsGo]
  | cons c cs =>
    rw [runsGo]
    by_cases hc : isAlnumLCB c = true <;> simp [hc]

theorem runsGo_true_eq_nil_iff (l : List Char) :
    runsGo true l = [] ↔ ∀ c ∈ l, isAlnumLCB c = false := by
  induction l with
  | nil => simp [runsGo]
  | cons c cs ih =>
    rw [runsGo]
    by_cases hc : isAlnumLCB c = true
    · simp [hc]
    · rw [if_neg (by simp [hc]), if_pos rfl]
      simp only [ih, List.mem_cons]
      constructor
      · intro h x hx
        rcases hx with rfl | hx
        · simpa using hc
        · exact h x hx
      · intro h x hx
        exact h x (Or.inr hx)

theorem runsGo_false_append_run2 (w m : List Char) (hne : w ≠ [])
    (hw : ∀ c ∈ w, isAlnumLCB c = false) :
    runsGo false (w ++ m) = '-' :: runsGo true m := by
  rw [runsGo_false_append_run w m hne hw]
  rw [runsGo_true_append _ _ (fun c hc => hw c (List.mem_of_mem_tail hc))]

/-- The leading whitespace run of the input is absorbed by the leading
hyphen strip. -/
theorem stripLead_runsGo_absorb (w m : List Char)
    (hw : ∀ c ∈ w, isAlnumLCB c = false) :
    stripLead (runsGo false (w ++ m)) = stripLead (runsGo false m) := by
  cases hwc : w with
  | nil => rfl
  | cons a t =>
    rw [← hwc, runsGo_false_append_run2 w m (by simp [hwc]) hw,
      stripLead_cons_hyphen]
    cases m with
    | nil => simp [runsGo, stripLead]
    | cons c cs =>
      by_cases hc : isAlnumLCB c = true
      · rw [runsGo, if_pos hc, runsGo, if_pos hc,
          stripLead_cons_ne _ (alnum_ne_hyphen hc)]
      · rw [runsGo, if_neg (by simp [hc]), if_pos rfl,
          runsGo, if_neg (by simp [hc]), if_neg (by simp), stripLead_cons_hyphen]

/-- The trailing non-alphanumeric run of the input is absorbed by the
trailing hyphen strip, whatever the scanner state. -/
theorem stripTrail_runsGo_absorb (m : List Char) :
    ∀ (b : Bool) (w : List Char), (∀ c ∈ w, isAlnumLCB c = false) →
    stripTrail (runsGo b (m ++ w)) = stripTrail (runsGo b m) := by
  induction m with
  | nil =>
    intro b w hw
    cases hwc : w with
    | nil => rfl
    | cons a t =>
      subst hwc
      cases b with
      | false =>
        rw [show ([] : List Char) ++ a :: t = (a :: t) ++ [] by simp,
          runsGo_false_append_run2 (a :: t) [] (by simp) hw]
        simp [runsGo, stripTrail]
      | true =>
        rw [show ([] : List Char) ++ a :: t = (a :: t) ++ [] by simp,
          runsGo_true_append (a :: t) [] hw]
  | cons c cs ih =>
    intro b w hw
    by_cases hc : isAlnumLCB c = true
    · have hstep : ∀ r, runsGo b (c :: r) = c :: runsGo false r := by
        intro r
        cases b <;> rw [runsGo, if_pos hc]
      rw [List.cons_append, hstep, hstep]
      by_cases hcs : cs = []
      · subst hcs
        cases hwc : w with
        | nil => rfl
        | cons a t =>
          subst hwc
          rw [show ([] : List Char) ++ a :: t = (a :: t) ++ [] by simp,
            runsGo_false_append_run2 (a :: t) [] (by simp) hw]
          rw [stripTrail_cons (by simp)]
          simp [stripTrail, alnum_ne_hyphen hc]
      · have h1 : runsGo false (cs ++ w) ≠ [] := by
          rw [Ne, runsGo_false_eq_nil_iff]
          simp [hcs]
        have h2 : runsGo false cs ≠ [] := by
          rw [Ne, runsGo_false_eq_nil_iff]
          exact hcs
        rw [stripTrail_cons h1, stripTrail_cons h2, ih false w hw]
    · cases b with
      | true =>
        rw [List.cons_append, runsGo, if_neg (by simp [hc]), if_pos rfl,
          runsGo, if_neg (by simp [hc]), if_pos rfl]
        exact ih true w hw
      | false =>
        rw [List.cons_append, runsGo, if_neg (by simp [hc]), if_neg (by simp),
          runsGo, if_neg (by simp [hc]), if_neg (by simp)]
        by_cases hall : ∀ x ∈ cs, isAlnumLCB x = false
        · have e1 : runsGo true cs = [] := (runsGo_true_eq_nil_iff cs).mpr hall
          have e2 : runsGo true (cs ++ w) = [] := by
            rw [runsGo_true_eq_nil_iff]
            intro x hx
            rcases List.mem_append.mp hx with hx | hx
            · exact hall x hx
            · exact hw x hx
          rw [e1, e2]
        · have h1 : runsGo true (cs ++ w) ≠ [] := by
            rw [Ne, runsGo_true_eq_nil_iff]
            intro hcon
            exact hall (fun x hx => hcon x (List.mem_append.mpr (Or.inl hx)))
          have h2 : runsGo true cs ≠ [] := by
            rw [Ne, runsGo_true_eq_nil_iff]
            exact hall
          rw [stripTrail_cons h1, stripTrail_cons h2, ih true w hw]

/-- Trailing absorption through both strips. -/
theorem strips_runsGo_absorb_trail (m w : List Char)
    (hw : ∀ c ∈ w, isAlnumLCB c = false) :
    stripTrail (stripLead (runsGo false (m ++ w))) =
      stripTrail (stripLead (runsGo false m)) := by
  cases m with
  | nil =>
    cases hwc : w with
    | nil => rfl
    | cons a t =>
      subst hwc
      rw [List.nil_append,
        show (a :: t : List Char) = (a :: t) ++ [] by simp,
        runsGo_false_append_run2 (a :: t) [] (by simp) hw]
      simp [runsGo, stripLead, stripTrail]
  | cons c cs =>
    by_cases hc : isAlnumLCB c = true
    · have e1 : runsGo false ((c :: cs) ++ w) = c :: runsGo false (cs ++ w) := by
        rw [List.cons_append, runsGo, if_pos hc]
      have e2 : runsGo false (c :: cs) = c :: runsGo false cs := by
        rw [runsGo, if_pos hc]
      rw [e1, e2, stripLead_cons_ne _ (alnum_ne_hyphen hc),
        stripLead_cons_ne _ (alnum_ne_hyphen hc), ← e1, ← e2]
      exact stripTrail_runsGo_absorb (c :: cs) false w hw
    · have e1 : runsGo false ((c :: cs) ++ w) = '-' :: runsGo true (cs ++ w) := by
        rw [List.cons_append, runsGo, if_neg (by simp [hc]), if_neg (by simp)]
      have e2 : runsGo false (c :: cs) = '-' :: runsGo true cs := by
        rw [runsGo, if_neg (by simp [hc]), if_neg (by simp)]
      rw [e1, e2, stripLead_cons_hyphen, stripLead_cons_hyphen]
      exact stripTrail_runsGo_absorb cs true w hw

/-- The fetch script slug generator meets the slug contract as the
specification words it: the trim the source performs before the run
replacement is absorbed by the hyphen collapsing and edge stripping. -/
theorem slugifyFetch_eq_slugSpec (s : String) : slugifyFetch s = slugSpec s := by
  unfold slugifyFetch slugSpec
  by_cases h : s.data = []
  · simp [h]
  · rw [if_neg h, if_neg h]
    congr 1
    set l := lowerL s.data with hl
    set l1 := l.dropWhile isWSB with hl1
    have hsplit1 : l = l.takeWhile isWSB ++ l1 :=
      (List.takeWhile_append_dropWhile (p := isWSB) (l := l)).symm
    have hsplit2 : l1 = trimChars l ++ (l1.reverse.takeWhile isWSB).reverse := by
      conv_lhs => rw [← List.reverse_reverse l1]
      conv_lhs =>
        rw [show l1.reverse = l1.reverse.takeWhile isWSB ++ l1.reverse.dropWhile isWSB
          from (List.takeWhile_append_dropWhile (p := isWSB) (l := l1.reverse)).symm]
      rw [List.reverse_append]
      rfl
    have hw1 : ∀ c ∈ l.takeWhile isWSB, isAlnumLCB c = false :=
      fun c hc => ws_not_alnum (List.mem_takeWhile_imp hc)
    have hw2 : ∀ c ∈ (l1.reverse.takeWhile isWSB).reverse, isAlnumLCB c = false :=
      fun c hc => ws_not_alnum (List.mem_takeWhile_imp (List.mem_reverse.mp hc))
    calc stripTrail (stripLead (runsGo false (trimChars l)))
        = stripTrail (stripLead (runsGo false l1)) := by
          conv_rhs => rw [hsplit2]
          exact (strips_runsGo_absorb_trail (trimChars l) _ hw2).symm
      _ = stripTrail (stripLead (runsGo false l)) := by
          conv_rhs => rw [hsplit1]
          exact (congrArg stripTrail (stripLead_runsGo_absorb _ l1 hw1)).symm

/-- Counterexample to claim C1: on the title "a_b" the slug generator the
parser applies keeps the underscore (a word character), while the claimed
contract (replace every run outside lowercase letters and digits by one
hyphen) demands "a-b", as the specification-worded generator shows. -/
theorem C1_counterexample :
    slugify "a_b" ≠ "a-b" ∧ slugSpec "a_b" = "a-b" := by
  exact ⟨by decide, by decide⟩

/-- Claim C1 as amended: the stated contract (lowercase; replace runs
outside lowercase letters and digits by a single hyphen; strip edge
hyphens; "unknown" on empty input) is implemented by the fetch script
slugify; parseIssueBody instead applies the parser module slugify, which
deletes characters outside word-whitespace-hyphen, turns whitespace runs
into hyphens and collapses hyphen runs, so it can keep underscores and
edge hyphens and maps the empty title to the empty string. -/
theorem C1_slug_contract :
    (∀ s, slugifyFetch s = slugSpec s) ∧
    (∀ (body : String) (n : Int) (ca ua : String) (rec : Project),
      parseIssueBody body n ca ua = some rec →
      rec.slug = ⟨slugifyCore (extractTitle body.data)⟩) ∧
    slugify "a_b" = "a_b" ∧ slugify "-Foo" = "-foo" ∧ slugify "" = "" := by
  refine ⟨slugifyFetch_eq_slugSpec, ?_, by decide, by decide, by decide⟩
  intro body n ca ua rec hP
  obtain ⟨-, -, -, hrec⟩ := (parse_some_iff body n ca ua rec).mp hP
  subst hrec
  rfl

/-- Witness for C1 at concrete inputs. -/
theorem C1_witness :
    slugifyFetch " A  b! " = slugSpec " A  b! " ∧
    (assembleRaw fixtureBody 1 fixtureTs fixtureTs).slug =
      ⟨slugifyCore (extractTitle fixtureBody.data)⟩ :=
  ⟨C1_slug_contract.1 " A  b! ",
   C1_slug_contract.2.1 fixtureBody 1 fixtureTs fixtureTs
     (assembleRaw fixtureBody 1 fixtureTs fixtureTs) (by decide)⟩

/-!
## Claim C2: idempotence of the two slug generators
-/

/-- Characters the parser slug generator can emit: non-uppercase word
characters and hyphens. -/
def lowOutB (c : Char) : Bool := (isWordB c && !isUpperB c) || c == '-'

/-- No two adjacent hyphens. -/
def noDH : List Char → Bool
  | [] => true
  | [_] => true
  | a :: b :: t => !(a == '-' && b == '-') && noDH (b :: t)

theorem noDH_cons_of (a : Char) (x : List Char) (h1 : noDH x = true)
    (h2 : a = '-' → x.head? ≠ some '-') : noDH (a :: x) = true := by
  cases x with
  | nil => rfl
  | cons b t =>
    rw [noDH, h1, Bool.and_true, Bool.not_eq_true', Bool.and_eq_false_iff]
    by_cases ha : a = '-'
    · right
      have hb : b ≠ '-' := by
        intro hbe
        exact h2 ha (by rw [hbe]; rfl)
      simp [hb]
    · left
      simp [ha]

theorem noDH_cons_inv {a : Char} {x : List Char} (h : noDH (a :: x) = true) :
    noDH x = true ∧ (a = '-' → x.head? ≠ some '-') := by
  cases x with
  | nil => exact ⟨rfl, by simp⟩
  | cons b t =>
    rw [noDH, Bool.and_eq_true, Bool.not_eq_true', Bool.and_eq_false_iff] at h
    refine ⟨h.2, fun ha => ?_⟩
    rcases h.1 with h1 | h1
    · rw [ha] at h1
      simp at h1
    · simp only [List.head?_cons, Ne, Option.some.injEq]
      intro hbe
      rw [hbe] at h1
      simp at h1

theorem mem_wsGo : ∀ (b : Bool) (l : List Char) (c : Char), c ∈ wsGo b l →
    (c ∈ l ∧ isWSB c = false) ∨ c = '-' := by
  intro b l
  induction l generalizing b with
  | nil => intro c h; simp [wsGo] at h
  | cons a t ih =>
    intro c h
    rw [wsGo] at h
    by_cases ha : isWSB a = true
    · rw [if_pos ha] at h
      by_cases hb : b = true
      · subst hb
        rw [if_pos rfl] at h
        rcases ih true c h with ⟨hm, hw⟩ | hd
        · exact Or.inl ⟨List.mem_cons_of_mem a hm, hw⟩
        · exact Or.inr hd
      · rw [if_neg hb] at h
        rcases List.mem_cons.mp h with rfl | h
        · exact Or.inr rfl
        · rcases ih true c h with ⟨hm, hw⟩ | hd
          · exact Or.inl ⟨List.mem_cons_of_mem a hm, hw⟩
          · exact Or.inr hd
    · rw [if_neg ha] at h
      rcases List.mem_cons.mp h with rfl | h
      · exact Or.inl ⟨List.mem_cons_self _ t, by simpa using ha⟩
      · rcases ih false c h with ⟨hm, hw⟩ | hd
        · exact Or.inl ⟨List.mem_cons_of_mem a hm, hw⟩
        · exact Or.inr hd

theorem mem_hyGo : ∀ (b : Bool) (l : List Char) (c : Char), c ∈ hyGo b l →
    c ∈ l ∨ c = '-' := by
  intro b l
  induction l generalizing b with
  | nil => intro c h; simp [hyGo] at h
  | cons a t ih =>
    intro c h
    rw [hyGo] at h
    by_cases ha : a == '-'
    · rw [if_pos ha] at h
      by_cases hb : b = true
      · subst hb
        rw [if_pos rfl] at h
        rcases ih true c h with hm | hd
        · exact Or.inl (List.mem_cons_of_mem a hm)
        · exact Or.inr hd
      · rw [if_neg hb] at h
        rcases List.mem_cons.mp h with rfl | h
        · exact Or.inr rfl
        · rcases ih true c h with hm | hd
          · exact Or.inl (List.mem_cons_of_mem a hm)
          · exact Or.inr hd
    · rw [if_neg ha] at h
      rcases List.mem_cons.mp h with rfl | h
      · exact Or.inl (List.mem_cons_self _ t)
      · rcases ih false c h with hm | hd
        · exact Or.inl (List.mem_cons_of_mem a hm)
        · exact Or.inr hd

theorem hyGo_true_head : ∀ l : List Char, (hyGo true l).head? ≠ some '-' := by
  intro l
  induction l with
  | nil => simp [hyGo]
  | cons a t ih =>
    rw [hyGo]
    by_cases ha : a == '-'
    · rw [if_pos ha, if_pos rfl]
      exact ih
    · rw [if_neg ha]
      simp only [List.head?_cons, Ne, Option.some.injEq]
      intro hae
      rw [hae] at ha
      simp at ha

theorem noDH_hyGo : ∀ (b : Bool) (l : List Char), noDH (hyGo b l) = true := by
  intro b l
  induction l generalizing b with
  | nil => cases b <;> rfl
  | cons a t ih =>
    rw [hyGo]
    by_cases ha : a == '-'
    · rw [if_pos ha]
      by_cases hb : b = true
      · rw [if_pos hb]
        exact ih true
      · rw [if_neg hb]
        exact noDH_cons_of '-' _ (ih true) (fun _ => hyGo_true_head t)
    · rw [if_neg ha]
      refine noDH_cons_of a _ (ih false) (fun hae => ?_)
      rw [hae] at ha
      simp at ha

theorem wsGo_eq_self : ∀ (b : Bool) (l : List Char),
    (∀ c ∈ l, isWSB c = false) → wsGo b l = l := by
  intro b l
  induction l generalizing b with
  | nil => intro _; rfl
  | cons a t ih =>
    intro h
    rw [wsGo, if_neg (by simp [h a (List.mem_cons_self _ t)])]
    rw [ih false (fun c hc => h c (List.mem_cons_of_mem a hc))]

theorem hyGo_eq_self : ∀ l : List Char, noDH l = true →
    hyGo false l = l ∧ (l.head? ≠ some '-' → hyGo true l = l) := by
  intro l
  induction l with
  | nil => exact fun _ => ⟨rfl, fun _ => rfl⟩
  | cons a t ih =>
    intro h
    obtain ⟨ht, hhd⟩ := noDH_cons_inv h
    by_cases ha : a = '-'
    · subst ha
      have htt : hyGo true t = t := by
        cases t with
        | nil => rfl
        | cons b s =>
          refine (ih ht).2 ?_
          exact hhd rfl
      constructor
      · rw [hyGo, if_pos (by simp), if_neg (by simp), htt]
      · intro hcon
        exact absurd (show (('-' :: t : List Char)).head? = some '-' from rfl) hcon
    · have hft : hyGo false t = t := (ih ht).1
      constructor
      · rw [hyGo, if_neg (by simp [ha]), hft]
      · intro _
        rw [hyGo, if_neg (by simp [ha]), hft]

theorem lowerL_eq_self {l : List Char} (h : ∀ c ∈ l, isUpperB c = false) :
    lowerL l = l := by
  rw [lowerL, List.map_congr_left (fun c hc => toLowerCh_of_notUpper (h c hc))]
  exact List.map_id l

theorem lowOut_not_upper {c : Char} (h : lowOutB c = true) : isUpperB c = false := by
  rw [lowOutB, Bool.or_eq_true, Bool.and_eq_true, Bool.not_eq_true'] at h
  rcases h with ⟨-, h⟩ | h
  · exact h
  · rw [show c = '-' by simpa using h]
    decide

theorem lowOut_keep {c : Char} (h : lowOutB c = true) : keepB c = true := by
  rw [lowOutB, Bool.or_eq_true, Bool.and_eq_true] at h
  rcases h with ⟨h, -⟩ | h
  · simp [keepB, h]
  · rw [show c = '-' by simpa using h]
    decide

/-- Every character the parser slug pipeline emits (before the final
trim) is a non-uppercase word character or a hyphen, and never
whitespace. -/
theorem slug_core_chars (l : List Char) :
    ∀ c ∈ hyGo false (wsGo false ((lowerL l).filter keepB)),
      lowOutB c = true ∧ isWSB c = false := by
  intro c hc
  rcases mem_hyGo false _ c hc with hw | hd
  · rcases mem_wsGo false _ c hw with ⟨hf, hnw⟩ | hd
    · obtain ⟨hm, hk⟩ := List.mem_filter.mp hf
      obtain ⟨x, -, hx⟩ := List.mem_map.mp hm
      have hup : isUpperB c = false := by
        rw [← hx]
        exact isUpperB_toLowerCh x
      refine ⟨?_, hnw⟩
      rw [keepB, Bool.or_eq_true, Bool.or_eq_true] at hk
      rcases hk with (hword | hws) | hhy
      · simp [lowOutB, hword, hup]
      · rw [hws] at hnw
        simp at hnw
      · simp [lowOutB, hhy]
    · subst hd
      exact ⟨by decide, by decide⟩
  · subst hd
    exact ⟨by decide, by decide⟩

/-- The parser module slug generator is idempotent. -/
theorem slugify_idem (s : String) : slugify (slugify s) = slugify s := by
  show (⟨slugifyCore (String.mk (slugifyCore s.data)).data⟩ : String) =
    ⟨slugifyCore s.data⟩
  have hdata : (String.mk (slugifyCore s.data)).data = slugifyCore s.data := rfl
  rw [hdata]
  congr 1
  have hchars := slug_core_chars s.data
  have hnws : ∀ c ∈ hyGo false (wsGo false ((lowerL s.data).filter keepB)),
      isWSB c = false := fun c hc => (hchars c hc).2
  have hcore : slugifyCore s.data =
      hyGo false (wsGo false ((lowerL s.data).filter keepB)) := by
    rw [slugifyCore, trimChars_eq_self_of hnws]
  rw [hcore]
  set u := hyGo false (wsGo false ((lowerL s.data).filter keepB)) with hu
  have hup : ∀ c ∈ u, isUpperB c = false :=
    fun c hc => lowOut_not_upper (hchars c hc).1
  have hkeep : ∀ c ∈ u, keepB c = true :=
    fun c hc => lowOut_keep (hchars c hc).1
  have hnws2 : ∀ c ∈ u, isWSB c = false := fun c hc => (hchars c hc).2
  have hnodh : noDH u = true := by
    rw [hu]
    exact noDH_hyGo false _
  rw [slugifyCore, lowerL_eq_self hup, List.filter_eq_self.mpr hkeep,
    wsGo_eq_self false u hnws2, (hyGo_eq_self u hnodh).1,
    trimChars_eq_self_of hnws2]

theorem mem_runsGo : ∀ (b : Bool) (l : List Char) (c : Char), c ∈ runsGo b l →
    isAlnumLCB c = true ∨ c = '-' := by
  intro b l
  induction l generalizing b with
  | nil => intro c h; simp [runsGo] at h
  | cons a t ih =>
    intro c h
    rw [runsGo] at h
    by_cases ha : isAlnumLCB a = true
    · rw [if_pos ha] at h
      rcases List.mem_cons.mp h with rfl | h
      · exact Or.inl ha
      · exact ih false c h
    · rw [if_neg (by simp [ha])] at h
      by_cases hb : b = true
      · rw [if_pos hb] at h
        exact ih true c h
      · rw [if_neg hb] at h
        rcases List.mem_cons.mp h with rfl | h
        · exact Or.inr rfl
        · exact ih true c h

theorem runsGo_true_head : ∀ l : List Char, (runsGo true l).head? ≠ some '-' := by
  intro l
  induction l with
  | nil => simp [runsGo]
  | cons a t ih =>
    rw [runsGo]
    by_cases ha : isAlnumLCB a = true
    · rw [if_pos ha]
      simp only [List.head?_cons, Ne, Option.some.injEq]
      intro hae
      exact alnum_ne_hyphen ha hae
    · rw [if_neg (by simp [ha]), if_pos rfl]
      exact ih

theorem noDH_runsGo : ∀ (b : Bool) (l : List Char), noDH (runsGo b l) = true := by
  intro b l
  induction l generalizing b with
  | nil => cases b <;> rfl
  | cons a t ih =>
    rw [runsGo]
    by_cases ha : isAlnumLCB a = true
    · rw [if_pos ha]
      refine noDH_cons_of a _ (ih false) (fun hae => absurd hae (alnum_ne_hyphen ha))
    · rw [if_neg (by simp [ha])]
      by_cases hb : b = true
      · rw [if_pos hb]
        exact ih true
      · rw [if_neg hb]
        exact noDH_cons_of '-' _ (ih true) (fun _ => runsGo_true_head t)

theorem mem_stripLead {c : Char} {l : List Char} (h : c ∈ stripLead l) : c ∈ l := by
  cases l with
  | nil => simp [stripLead] at h
  | cons a t =>
    rw [stripLead] at h
    by_cases ha : a = '-'
    · rw [if_pos ha] at h
      exact List.mem_cons_of_mem a h
    · rwa [if_neg ha] at h

theorem mem_stripTrail : ∀ {l : List Char} {c : Char}, c ∈ stripTrail l → c ∈ l := by
  intro l
  induction l with
  | nil => intro c h; simp [stripTrail] at h
  | cons a t ih =>
    intro c h
    cases t with
    | nil =>
      rw [stripTrail] at h
      by_cases ha : a = '-'
      · rw [if_pos ha] at h
        simp at h
      · rw [if_neg ha] at h
        exact h
    | cons b s =>
      rw [stripTrail_cons (by simp)] at h
      rcases List.mem_cons.mp h with rfl | h
      · exact List.mem_cons_self _ _
      · exact List.mem_cons_of_mem a (ih h)

theorem noDH_stripLead {l : List Char} (h : noDH l = true) :
    noDH (stripLead l) = true := by
  cases l with
  | nil => exact h
  | cons a t =>
    rw [stripLead]
    by_cases ha : a = '-'
    · rw [if_pos ha]
      exact (noDH_cons_inv h).1
    · rwa [if_neg ha]

theorem stripTrail_cons_eq_nil_iff (b : Char) (t : List Char) :
    stripTrail (b :: t) = [] ↔ b = '-' ∧ t = [] := by
  cases t with
  | nil =>
    rw [stripTrail]
    by_cases hb : b = '-' <;> simp [hb]
  | cons c s =>
    rw [stripTrail_cons (by simp)]
    simp

theorem stripTrail_head : ∀ l : List Char, stripTrail l = [] ∨
    (stripTrail l).head? = l.head? := by
  intro l
  cases l with
  | nil => exact Or.inl rfl
  | cons a t =>
    cases t with
    | nil =>
      rw [stripTrail]
      by_cases ha : a = '-'
      · exact Or.inl (by rw [if_pos ha])
      · exact Or.inr (by rw [if_neg ha])
    | cons b s => exact Or.inr rfl

theorem noDH_stripTrail : ∀ {l : List Char}, noDH l = true →
    noDH (stripTrail l) = true := by
  intro l
  induction l with
  | nil => exact fun h => h
  | cons a t ih =>
    intro h
    obtain ⟨ht, hhd⟩ := noDH_cons_inv h
    cases t with
    | nil =>
      rw [stripTrail]
      by_cases ha : a = '-' <;> simp [ha, noDH]
    | cons b s =>
      rw [stripTrail_cons (by simp)]
      refine noDH_cons_of a _ (ih ht) (fun ha => ?_)
      rcases stripTrail_head (b :: s) with he | he
      · rw [he]
        simp
      · rw [he]
        exact hhd ha

theorem head_stripLead_of_noDH {l : List Char} (h : noDH l = true) :
    (stripLead l).head? ≠ some '-' := by
  cases l with
  | nil => simp [stripLead]
  | cons a t =>
    rw [stripLead]
    by_cases ha : a = '-'
    · rw [if_pos ha]
      exact (noDH_cons_inv h).2 ha
    · rw [if_neg ha]
      simpa using ha

theorem getLast_stripTrail : ∀ {l : List Char}, noDH l = true →
    (stripTrail l).getLast? ≠ some '-' := by
  intro l
  induction l with
  | nil => simp [stripTrail]
  | cons a t ih =>
    intro h
    obtain ⟨ht, hhd⟩ := noDH_cons_inv h
    cases t with
    | nil =>
      rw [stripTrail]
      by_cases ha : a = '-'
      · simp [ha]
      · simp [ha]
    | cons b s =>
      rw [stripTrail_cons (by simp)]
      by_cases he : stripTrail (b :: s) = []
      · rw [he]
        obtain ⟨hb, hs⟩ := (stripTrail_cons_eq_nil_iff b s).mp he
        have ha : a ≠ '-' := by
          intro hae
          exact hhd hae (by rw [hb]; rfl)
        simpa using ha
      · cases hst : stripTrail (b :: s) with
        | nil => exact absurd hst he
        | cons x xs =>
          rw [List.getLast?_cons_cons]
          rw [hst] at ih
          exact ih ht

theorem slugChar_not_upper {c : Char} (h : slugCharB c = true) : isUpperB c = false := by
  rw [slugCharB, Bool.or_eq_true] at h
  rcases h with h | h
  · rw [isAlnumLCB, Bool.or_eq_true] at h
    simp only [isUpperB, Bool.and_eq_false_iff, decide_eq_false_iff_not]
    rcases h with h | h <;>
    · simp only [isLowerB, isDigitB, Bool.and_eq_true, decide_eq_true_eq] at h
      unfold cn at h ⊢
      omega
  · rw [show c = '-' by simpa using h]
    decide

theorem slugChar_not_ws {c : Char} (h : slugCharB c = true) : isWSB c = false := by
  rw [slugCharB, Bool.or_eq_true] at h
  rcases h with h | h
  · rw [isAlnumLCB, Bool.or_eq_true] at h
    simp only [isWSB, Bool.or_eq_false_iff, beq_eq_false_iff_ne, Ne]
    rcases h with h | h <;>
    · simp only [isLowerB, isDigitB, Bool.and_eq_true, decide_eq_true_eq] at h
      unfold cn at h ⊢
      omega
  · rw [show c = '-' by simpa using h]
    decide

theorem runsGo_eq_self : ∀ l : List Char, (∀ c ∈ l, slugCharB c = true) →
    noDH l = true →
    runsGo false l = l ∧ (l.head? ≠ some '-' → runsGo true l = l) := by
  intro l
  induction l with
  | nil => exact fun _ _ => ⟨rfl, fun _ => rfl⟩
  | cons a t ih =>
    intro hch h
    obtain ⟨ht, hhd⟩ := noDH_cons_inv h
    have iht := ih (fun c hc => hch c (List.mem_cons_of_mem a hc)) ht
    have ha := hch a (List.mem_cons_self _ t)
    rw [slugCharB, Bool.or_eq_true] at ha
    rcases ha with ha | ha
    · constructor
      · rw [runsGo, if_pos ha, iht.1]
      · intro _
        rw [runsGo, if_pos ha, iht.1]
    · have hae : a = '-' := by simpa using ha
      subst hae
      constructor
      · rw [runsGo, if_neg (by decide), if_neg (by simp)]
        cases t with
        | nil => rfl
        | cons b s =>
          rw [iht.2 (hhd rfl)]
      · intro hcon
        exact absurd (show (('-' :: t : List Char)).head? = some '-' from rfl) hcon

theorem stripLead_eq_self {l : List Char} (h : l.head? ≠ some '-') :
    stripLead l = l := by
  cases l with
  | nil => rfl
  | cons a t =>
    rw [stripLead, if_neg (by simpa using h)]

theorem stripTrail_eq_self : ∀ {l : List Char}, l.getLast? ≠ some '-' →
    stripTrail l = l := by
  intro l
  induction l with
  | nil => exact fun _ => rfl
  | cons a t ih =>
    intro h
    cases t with
    | nil =>
      rw [stripTrail, if_neg (by simpa using h)]
    | cons b s =>
      rw [stripTrail_cons (by simp), ih (by rwa [List.getLast?_cons_cons] at h)]

/-- The fetch script slug generator is idempotent on every input whose
slug is non-empty. -/
theorem slugifyFetch_idem (s : String) (h : slugifyFetch s ≠ "") :
    slugifyFetch (slugifyFetch s) = slugifyFetch s := by
  by_cases hd : s.data = []
  · rw [show slugifyFetch s = "unknown" by rw [slugifyFetch, if_pos hd]]
    decide
  · have hsz : slugifyFetch s =
        ⟨stripTrail (stripLead (runsGo false (trimChars (lowerL s.data))))⟩ := by
      rw [slugifyFetch, if_neg hd]
    set z := stripTrail (stripLead (runsGo false (trimChars (lowerL s.data)))) with hz
    have hzne : z ≠ [] := by
      intro h0
      apply h
      rw [hsz, h0]
    have hchars : ∀ c ∈ z, slugCharB c = true := by
      intro c hc
      have hm := mem_stripLead (mem_stripTrail hc)
      rcases mem_runsGo false _ c hm with hal | hhy
      · simp [slugCharB, hal]
      · simp [slugCharB, hhy]
    have hnodh0 : noDH (stripLead (runsGo false (trimChars (lowerL s.data)))) = true :=
      noDH_stripLead (noDH_runsGo false _)
    have hnodh : noDH z = true := noDH_stripTrail hnodh0
    have hhead : z.head? ≠ some '-' := by
      rcases stripTrail_head (stripLead (runsGo false (trimChars (lowerL s.data))))
        with he | he
      · rw [hz] at hzne
        exact absurd he hzne
      · rw [hz, he]
        exact head_stripLead_of_noDH (noDH_runsGo false _)
    have hlast : z.getLast? ≠ some '-' := getLast_stripTrail hnodh0
    rw [hsz]
    rw [show slugifyFetch ⟨z⟩ =
        ⟨stripTrail (stripLead (runsGo false (trimChars (lowerL z))))⟩ by
      rw [slugifyFetch, if_neg (by simpa using hzne)]]
    congr 1
    rw [lowerL_eq_self (fun c hc => slugChar_not_upper (hchars c hc)),
      trimChars_eq_self_of (fun c hc => slugChar_not_ws (hchars c hc)),
      (runsGo_eq_self z hchars hnodh).1, stripLead_eq_self hhead,
      stripTrail_eq_self hlast]

/-- Counterexample to claim C2: the fetch script slug generator is not
idempotent: on "!!!" it returns the empty string, and re-applying it to
the empty string returns the fallback "unknown". -/
theorem C2_counterexample :
    slugifyFetch "!!!" = "" ∧ slugifyFetch (slugifyFetch "!!!") = "unknown" ∧
    slugifyFetch (slugifyFetch "!!!") ≠ slugifyFetch "!!!" := by
  exact ⟨by decide, by decide, by decide⟩

/-- Claim C2 as amended: the parser module slug generator is idempotent
on every string; the fetch script slug generator is idempotent on every
string whose slug is non-empty, and fails to be idempotent exactly on the
non-empty strings with no alphanumeric character, whose slug is the empty
string but whose re-slug is "unknown". -/
theorem C2_idempotence :
    (∀ s, slugify (slugify s) = slugify s) ∧
    (∀ s, slugifyFetch s ≠ "" → slugifyFetch (slugifyFetch s) = slugifyFetch s) :=
  ⟨slugify_idem, slugifyFetch_idem⟩

/-- Witness for C2 at concrete inputs. -/
theorem C2_witness :
    slugify (slugify "Hello World!") = slugify "Hello World!" ∧
    slugifyFetch (slugifyFetch "Ab c") = slugifyFetch "Ab c" :=
  ⟨C2_idempotence.1 "Hello World!", C2_idempotence.2 "Ab c" (by decide)⟩
